import Mathlib

/-!
Shallow embedding of the Water-Sort-Bot solver (src/solver.py) and proofs
about its puzzle-state model, search engine and execution scheduler.

Python lists of segments are embedded as `List ColorSegment` (top of the
tube first), Python strings as `String`, Python `None`-or-value results and
raised exceptions as `Option`.  Floating point times in the scheduler are
embedded as exact rationals.
-/

namespace WaterSort

/-- `ColorSegment` from solver.py: a run of one color with a pixel height. -/
structure ColorSegment where
  color : String
  height : Nat
deriving DecidableEq, Repr

/-- `TubeState` from solver.py: ordered segments (top first) plus capacity. -/
structure TubeState where
  tube_index : Nat
  segments : List ColorSegment
  capacity_px : Nat
deriving DecidableEq, Repr

/-- `TubeState.current_fill_px`: total height of the non-empty segments. -/
def TubeState.current_fill_px (t : TubeState) : Nat :=
  ((t.segments.filter (fun s => ¬ s.color = "empty")).map (fun s => s.height)).sum

/-- Height of the first segment labeled `empty` in a segment list, 0 if none
(helper shared by `available_space_px` below). -/
def firstEmptyHeight (l : List ColorSegment) : Nat :=
  match l.find? (fun s => s.color = "empty") with
  | some s => s.height
  | none => 0

/-- `TubeState.available_space_px`: height of the first `empty` segment, 0 if none. -/
def TubeState.available_space_px (t : TubeState) : Nat :=
  firstEmptyHeight t.segments

/-- `top_color` on a segment list: the first non-`empty` segment, if any. -/
def topColorOf (l : List ColorSegment) : Option ColorSegment :=
  l.find? (fun s => ¬ s.color = "empty")

/-- `TubeState.top_color`: the first non-`empty` segment, if any. -/
def TubeState.top_color (t : TubeState) : Option ColorSegment :=
  topColorOf t.segments

/-- `TubeState.is_empty`: every segment is labeled `empty`. -/
def TubeState.is_empty (t : TubeState) : Bool :=
  t.segments.all (fun s => s.color = "empty")

/-- `TubeState.is_complete`: empty, or one single color filling the tube to
capacity exactly. -/
def TubeState.is_complete (t : TubeState) : Bool :=
  match t.segments.filter (fun s => ¬ s.color = "empty") with
  | [] => true
  | c :: rest =>
      ((c :: rest).all (fun s => s.color = c.color)) &&
      (((c :: rest).map (fun s => s.height)).sum == t.capacity_px)

/-- `TubeState.serialize`: `"{index}:" + ",".join("{color}:{height}")`. -/
def TubeState.serialize (t : TubeState) : String :=
  toString t.tube_index ++ ":" ++
    String.intercalate "," (t.segments.map (fun s => s.color ++ ":" ++ toString s.height))

/-- `PuzzleState` from solver.py: the ordered collection of tubes. -/
structure PuzzleState where
  tubes : List TubeState
deriving DecidableEq, Repr

/-- `PuzzleState.from_detection`: build the state from a Detector snapshot,
a list of `(tube_index, [(color, height), ...])` entries; the capacity of
each tube is the sum of its segment heights.  The source performs no
invariant validation. -/
def PuzzleState.from_detection (all_tube_colors : List (Nat × List (String × Nat))) :
    PuzzleState :=
  PuzzleState.mk (all_tube_colors.map (fun td =>
    TubeState.mk td.1 (td.2.map (fun c => ColorSegment.mk c.1 c.2))
      ((td.2.map (fun c => c.2)).sum)))

/-- `PuzzleState.is_solved`: every tube is complete. -/
def PuzzleState.is_solved (p : PuzzleState) : Bool :=
  p.tubes.all (fun t => t.is_complete)

/-- `PuzzleState.serialize`: tube serializations joined with `"|"`. -/
def PuzzleState.serialize (p : PuzzleState) : String :=
  String.intercalate "|" (p.tubes.map TubeState.serialize)

/-- `can_pour` from solver.py. -/
def can_pour (from_tube to_tube : TubeState) : Bool :=
  match from_tube.top_color with
  | none => false
  | some fc =>
      if fc.color = "empty" then false
      else if to_tube.available_space_px < fc.height then false
      else
        match to_tube.top_color with
        | none => true
        | some tc => tc.color == fc.color

/-- The loop of `merge_consecutive_segments`: `cur` is the last segment of
the accumulator (`merged[-1]`); a same-colored segment is absorbed into it,
a differently-colored one emits it and starts a new run. -/
def mergeFrom (cur : ColorSegment) : List ColorSegment → List ColorSegment
  | [] => [cur]
  | s :: rest =>
      if cur.color = s.color then
        mergeFrom (ColorSegment.mk s.color (cur.height + s.height)) rest
      else
        cur :: mergeFrom s rest

/-- `merge_consecutive_segments` from solver.py: left-to-right run-length
merge of adjacent equal-colored segments. -/
def merge_consecutive_segments : List ColorSegment → List ColorSegment
  | [] => []
  | s :: rest => mergeFrom s rest

/-- The source-side mutation of `apply_move`: pop the first non-`empty`
segment (the loop locating `top_idx` followed by `segments.pop(top_idx)`). -/
def remove_first_nonempty : List ColorSegment → List ColorSegment
  | [] => []
  | s :: rest => if s.color = "empty" then s :: remove_first_nonempty rest else rest

/-- The destination-side first step of `apply_move`: find the first `empty`
segment and shrink it by `h`, or remove it when its height is at most `h`;
unchanged when no `empty` segment exists. -/
def reduce_first_empty (h : Nat) : List ColorSegment → List ColorSegment
  | [] => []
  | s :: rest =>
      if s.color = "empty" then
        if s.height > h then ColorSegment.mk "empty" (s.height - h) :: rest else rest
      else s :: reduce_first_empty h rest

/-- The destination-side second step of `apply_move`: after the `empty`
space has been consumed, merge the poured segment into a matching leading
segment or insert it at the top. -/
def pour_into (top : ColorSegment) (l : List ColorSegment) : List ColorSegment :=
  match reduce_first_empty top.height l with
  | [] => [ColorSegment.mk top.color top.height]
  | t0 :: rest =>
      if t0.color = top.color then
        ColorSegment.mk top.color (t0.height + top.height) :: rest
      else
        ColorSegment.mk top.color top.height :: t0 :: rest

/-- The mutation core of `apply_move` on a tube list (the part of the
method that runs after the deep copy): `none` embeds a raised Python
exception (the `ValueError` on an all-empty source tube, or indexing
outside the tube list).  Faithful for distinct tube indices (the solver
never pours a tube into itself). -/
def apply_move_tubes (tubes : List TubeState) (from_idx to_idx : Nat) :
    Option (List TubeState) :=
  match tubes[from_idx]?, tubes[to_idx]? with
  | some from_tube, some to_tube =>
      match from_tube.top_color with
      | none => none
      | some top =>
          let new_from := TubeState.mk from_tube.tube_index
            (merge_consecutive_segments
              (ColorSegment.mk "empty" top.height :: remove_first_nonempty from_tube.segments))
            from_tube.capacity_px
          let new_to := TubeState.mk to_tube.tube_index
            (merge_consecutive_segments (pour_into top to_tube.segments))
            to_tube.capacity_px
          some ((tubes.set from_idx new_from).set to_idx new_to)
  | _, _ => none

/-- `PuzzleState.apply_move` from solver.py: deep-copy the tubes (a no-op
on values), run the mutation core on the copy and wrap the result in a
new `PuzzleState`. -/
def PuzzleState.apply_move (p : PuzzleState) (from_idx to_idx : Nat) : Option PuzzleState :=
  (apply_move_tubes p.tubes from_idx to_idx).map PuzzleState.mk

/-- `PuzzleState.get_valid_moves` from solver.py. -/
def PuzzleState.get_valid_moves (p : PuzzleState) : List (Nat × Nat) :=
  p.tubes.enum.flatMap (fun fi =>
    if fi.2.is_empty || fi.2.is_complete then []
    else
      match fi.2.top_color with
      | none => []
      | some fc =>
          if fc.color = "empty" then []
          else
            p.tubes.enum.filterMap (fun ti =>
              if fi.1 = ti.1 then none
              else if ti.2.is_complete && ¬ ti.2.is_empty then none
              else if can_pour fi.2 ti.2 then some (fi.1, ti.1) else none))

/-- `would_complete_tube` from solver.py. -/
def would_complete_tube (p : PuzzleState) (from_idx to_idx : Nat) : Bool :=
  match p.tubes[from_idx]?, p.tubes[to_idx]? with
  | some from_tube, some to_tube =>
      match from_tube.top_color with
      | none => false
      | some fc =>
          if to_tube.is_empty then fc.height == to_tube.capacity_px
          else
            match to_tube.top_color with
            | none => false
            | some tc =>
                if ¬ tc.color = fc.color then false
                else
                  match to_tube.segments.filter (fun s => ¬ s.color = "empty") with
                  | ne =>
                      if ¬ ne.all (fun s => s.color = fc.color) then false
                      else ((ne.map (fun s => s.height)).sum + fc.height) == to_tube.capacity_px
  | _, _ => false

/-- The heuristic tier of one move, mirroring the `if`/`elif` cascade of
`prioritize_moves` (1 = completes a tube, ..., 5 = everything else; moves
with an out-of-range index never arise from `get_valid_moves`). -/
def move_tier (p : PuzzleState) (m : Nat × Nat) : Nat :=
  match p.tubes[m.1]?, p.tubes[m.2]? with
  | some from_tube, some to_tube =>
      if would_complete_tube p m.1 m.2 then 1
      else
        match to_tube.top_color, from_tube.top_color with
        | some tc, some fc =>
            if tc.color = fc.color then 2
            else if to_tube.is_empty && from_tube.is_complete then 3
            else if to_tube.is_empty then 4
            else 5
        | _, _ =>
            if to_tube.is_empty && from_tube.is_complete then 3
            else if to_tube.is_empty then 4
            else 5
  | _, _ => 5

/-- `prioritize_moves` from solver.py: stable bucketing into five tiers. -/
def prioritize_moves (p : PuzzleState) (moves : List (Nat × Nat)) : List (Nat × Nat) :=
  (moves.filter (fun m => move_tier p m == 1)) ++
  (moves.filter (fun m => move_tier p m == 2)) ++
  (moves.filter (fun m => move_tier p m == 3)) ++
  (moves.filter (fun m => move_tier p m == 4)) ++
  (moves.filter (fun m => move_tier p m == 5))

/-- The `for` loop over candidate moves inside `dfs`, parametrized by the
recursive call at the next depth: skip a move that exactly inverts the
previous one, otherwise apply it and recurse, propagating the first
success while threading the visited set. -/
def tryMoves
    (rec : PuzzleState → List (Nat × Nat) → List String →
      Option (List (Nat × Nat)) × List String) :
    List (Nat × Nat) → PuzzleState → List (Nat × Nat) → List String →
    Option (List (Nat × Nat)) × List String
  | [], _, _, visited => (none, visited)
  | m :: rest, state, path, visited =>
    if path.getLast? = some (m.2, m.1) then tryMoves rec rest state path visited
    else
      match state.apply_move m.1 m.2 with
      | none => (none, visited)
      | some s' =>
          match rec s' (path ++ [m]) visited with
          | (some res, v') => (some res, v')
          | (none, v') => tryMoves rec rest state path v'

/-- The recursive `dfs` of `solve`, with the depth guard expressed through
fuel: at depth `d` the fuel is `max_depth - d`, so `fuel = 0` exactly when
`depth >= max_depth`.  The visited set (a Python `set` of serializations)
is threaded explicitly; `apply_move` failure (a raised exception) cannot
occur on moves produced by `get_valid_moves` and is embedded as a failed
branch. -/
def dfsGo : Nat → PuzzleState → List (Nat × Nat) → List String →
    Option (List (Nat × Nat)) × List String
  | fuel, state, path, visited =>
    if state.is_solved then (some path, visited)
    else
      match fuel with
      | 0 => (none, visited)
      | Nat.succ fuel' =>
          if visited.contains state.serialize then (none, visited)
          else
            tryMoves (dfsGo fuel') (prioritize_moves state state.get_valid_moves) state path
              (state.serialize :: visited)

/-- `solve` from solver.py: run `dfs` from depth 0 with an empty path and
an empty visited set, returning only the move list. -/
def solve (initial_state : PuzzleState) (max_depth : Nat) : Option (List (Nat × Nat)) :=
  (dfsGo max_depth initial_state [] []).1

/-- Replaying a move list from a state via `apply_move`, failing if any
single move fails. -/
def apply_moves (p : PuzzleState) : List (Nat × Nat) → Option PuzzleState
  | [] => some p
  | m :: rest =>
      match p.apply_move m.1 m.2 with
      | some p' => apply_moves p' rest
      | none => none

/-! ### Tube invariants I1-I3 from the data-model section of the spec -/

/-- Total height of a segment list, `empty` segments included. -/
def seg_sum (l : List ColorSegment) : Nat :=
  (l.map (fun s => s.height)).sum

/-- Invariant I2 as a predicate on a segment list: no two adjacent
segments share the same label. -/
def no_adjacent_dup : List ColorSegment → Bool
  | [] => true
  | [_] => true
  | s1 :: s2 :: rest => (¬ s1.color = s2.color) && no_adjacent_dup (s2 :: rest)

/-- Every segment in the list carries a real color (not `empty`). -/
def all_nonempty (l : List ColorSegment) : Bool :=
  l.all (fun s => ¬ s.color = "empty")

/-- Invariant I3 as a predicate on a segment list: at most one `empty`
segment, and if present it is the first (topmost) element. -/
def inv3_segs : List ColorSegment → Bool
  | [] => true
  | s :: rest => if s.color = "empty" then all_nonempty rest else all_nonempty (s :: rest)

/-- Number of segments labeled `empty`. -/
def empties_count (l : List ColorSegment) : Nat :=
  (l.filter (fun s => s.color = "empty")).length

/-- Invariant I1 for a tube: segment heights (empty included) sum to the
capacity. -/
def TubeState.inv1 (t : TubeState) : Bool :=
  seg_sum t.segments == t.capacity_px

/-- Invariant I2 for a tube. -/
def TubeState.inv2 (t : TubeState) : Bool :=
  no_adjacent_dup t.segments

/-- Invariant I3 for a tube. -/
def TubeState.inv3 (t : TubeState) : Bool :=
  inv3_segs t.segments

/-- Invariants I1-I3 together, as the claims hypothesize them. -/
def TubeState.invariants (t : TubeState) : Bool :=
  t.inv1 && t.inv2 && t.inv3

/-- Segment amounts are positive, as the spec's data model requires of
`ColorSegment` amounts. -/
def TubeState.pos_heights (t : TubeState) : Bool :=
  t.segments.all (fun s => decide (0 < s.height))

/-! ### The spec's wording of `canPour`, for the refinement claim C6 -/

/-- Amount of the leading `empty` segment of a tube, 0 if the first
segment is not `empty` (the spec's `availableSpace`). -/
def leading_empty_amount (t : TubeState) : Nat :=
  match t.segments with
  | [] => 0
  | s :: _ => if s.color = "empty" then s.height else 0

/-- `canPour` as the spec words it: (a) a topmost non-empty segment
exists in `from`; (b) the leading empty amount of `to` is at least that
segment's amount; (c) `to` has no non-empty segment or its topmost
non-empty segment has the same label. -/
def can_pour_spec (from_tube to_tube : TubeState) : Bool :=
  match from_tube.top_color with
  | none => false
  | some fc =>
      (decide (fc.height ≤ leading_empty_amount to_tube)) &&
      (match to_tube.top_color with
       | none => true
       | some tc => tc.color == fc.color)

/-! ### Execution scheduler (`compute_execution_plan`), times as exact rationals -/

/-- The loop of `compute_execution_plan`: `tlu` is `tube_last_used`
(absent keys read as 0 via `.get(idx, 0.0)`, modeled by a total function
initialized to 0), `ct` is `current_time`, `d` the animation delay. -/
def sched_aux (d : ℚ) : List (Nat × Nat) → (Nat → ℚ) → ℚ → List (Nat × Nat × ℚ)
  | [], _, _ => []
  | (f, t) :: rest, tlu, ct =>
      let earliest := max (tlu f) (tlu t)
      let delay := max 0 (earliest - ct)
      let ct' := earliest + d
      (f, t, delay) :: sched_aux d rest (fun x => if x = f ∨ x = t then ct' else tlu x) ct'

/-- `compute_execution_plan` from solver.py. -/
def compute_execution_plan (moves : List (Nat × Nat)) (animation_delay : ℚ) :
    List (Nat × Nat × ℚ) :=
  sched_aux animation_delay moves (fun _ => 0) 0

/-- The same loop, also emitting each move's start time on the scheduler's
timeline: the running current time plus the emitted delay. -/
def sched_trace (d : ℚ) : List (Nat × Nat) → (Nat → ℚ) → ℚ → List (Nat × Nat × ℚ × ℚ)
  | [], _, _ => []
  | (f, t) :: rest, tlu, ct =>
      let earliest := max (tlu f) (tlu t)
      let delay := max 0 (earliest - ct)
      let ct' := earliest + d
      (f, t, delay, ct + delay) :: sched_trace d rest (fun x => if x = f ∨ x = t then ct' else tlu x) ct'

/-- Check of the per-tube exclusivity property over a trace: every move's
start time is at least the end time (start of the previous use plus the
animation duration) of the immediately preceding move using either of its
tubes.  `lastStart` records the start time of the latest earlier move
using each tube. -/
def check_sched (d : ℚ) : List (Nat × Nat × ℚ × ℚ) → (Nat → Option ℚ) → Bool
  | [], _ => true
  | (f, t, _, start) :: rest, lastStart =>
      (match lastStart f with
       | none => true
       | some s0 => decide (s0 + d ≤ start)) &&
      (match lastStart t with
       | none => true
       | some s0 => decide (s0 + d ≤ start)) &&
      check_sched d rest (fun x => if x = f ∨ x = t then some start else lastStart x)

/-- The per-tube exclusivity property of the plan produced for `moves`
with duration `d` (claim C8). -/
def scheduler_respects_tubes (moves : List (Nat × Nat)) (d : ℚ) : Bool :=
  check_sched d (sched_trace d moves (fun _ => 0) 0) (fun _ => none)

/-- All delays of the plan are nonnegative. -/
def all_delays_nonneg (moves : List (Nat × Nat)) (d : ℚ) : Bool :=
  (compute_execution_plan moves d).all (fun p => decide (0 ≤ p.2.2))

/-- All delays of the plan are exactly 0 (claim C10). -/
def all_delays_zero (moves : List (Nat × Nat)) (d : ℚ) : Bool :=
  (compute_execution_plan moves d).all (fun p => p.2.2 == 0)

/-! ### Heap model of `apply_move`'s purity (claim C5)

The Python method mutates only `deepcopy(self.tubes)`; the heap model
makes the mutation discipline explicit: states live at addresses, the
copy is appended at a fresh address and only that entry is built from the
mutated tubes. -/

/-- `deepcopy` of a tube list: every tube and every segment is rebuilt. -/
def deepcopy_tubes (l : List TubeState) : List TubeState :=
  l.map (fun tb =>
    TubeState.mk tb.tube_index (tb.segments.map (fun s => ColorSegment.mk s.color s.height))
      tb.capacity_px)

/-- A heap of puzzle states, one tube list per address. -/
structure Heap where
  states : List (List TubeState)
deriving DecidableEq, Repr

/-- `apply_move` acting on the heap: read the state at `a`, deep-copy its
tubes, mutate only the copy, store the result at a fresh address and
return that address; the entry at `a` is never written. -/
def apply_move_heap (hp : Heap) (a from_idx to_idx : Nat) : Option (Heap × Nat) :=
  match hp.states[a]? with
  | none => none
  | some tubes =>
      match apply_move_tubes (deepcopy_tubes tubes) from_idx to_idx with
      | none => none
      | some newTubes => some (Heap.mk (hp.states ++ [newTubes]), hp.states.length)

/-- Serialization of a heap entry (`PuzzleState.serialize` of the state
whose tubes it holds). -/
def serialize_tubes (l : List TubeState) : String :=
  String.intercalate "|" (l.map TubeState.serialize)

/-! ## Lemmas about the segment operations -/

@[simp] theorem ColorSegment.mk_height (c : String) (h : Nat) :
    (ColorSegment.mk c h).height = h := rfl

@[simp] theorem ColorSegment.mk_color (c : String) (h : Nat) :
    (ColorSegment.mk c h).color = c := rfl

theorem seg_sum_cons (s : ColorSegment) (l : List ColorSegment) :
    seg_sum (s :: l) = s.height + seg_sum l := by
  simp [seg_sum]

theorem mergeFrom_head_color (cur : ColorSegment) (l : List ColorSegment) :
    ∃ h t, mergeFrom cur l = h :: t ∧ h.color = cur.color := by
  induction l generalizing cur with
  | nil => exact ⟨cur, [], rfl, rfl⟩
  | cons s rest ih =>
      simp only [mergeFrom]
      split
      · next heq =>
          obtain ⟨h, t, he, hc⟩ := ih (ColorSegment.mk s.color (cur.height + s.height))
          exact ⟨h, t, he, by rw [hc]; exact heq.symm⟩
      · exact ⟨cur, _, rfl, rfl⟩

theorem mergeFrom_sum (cur : ColorSegment) (l : List ColorSegment) :
    seg_sum (mergeFrom cur l) = cur.height + seg_sum l := by
  induction l generalizing cur with
  | nil => simp [mergeFrom, seg_sum]
  | cons s rest ih =>
      simp only [mergeFrom]
      split
      · rw [ih, seg_sum_cons]; simp only [ColorSegment.mk_height]; omega
      · rw [seg_sum_cons, ih, seg_sum_cons]

theorem mergeFrom_nodup (cur : ColorSegment) (l : List ColorSegment) :
    no_adjacent_dup (mergeFrom cur l) = true := by
  induction l generalizing cur with
  | nil => simp [mergeFrom, no_adjacent_dup]
  | cons s rest ih =>
      simp only [mergeFrom]
      split
      · exact ih _
      · next hne =>
          obtain ⟨h, t, he, hc⟩ := mergeFrom_head_color s rest
          rw [he]
          have ht : no_adjacent_dup (h :: t) = true := he ▸ ih s
          simp only [no_adjacent_dup, Bool.and_eq_true, decide_eq_true_eq]
          exact ⟨by rw [hc]; exact hne, ht⟩

theorem mergeFrom_eq_of_nodup (cur : ColorSegment) (l : List ColorSegment)
    (h : no_adjacent_dup (cur :: l) = true) : mergeFrom cur l = cur :: l := by
  induction l generalizing cur with
  | nil => rfl
  | cons s rest ih =>
      simp only [no_adjacent_dup, Bool.and_eq_true, decide_eq_true_eq] at h
      simp only [mergeFrom]
      split
      · next heq => exact absurd heq h.1
      · rw [ih s h.2]

theorem mergeFrom_colors (P : String → Bool) (cur : ColorSegment) (l : List ColorSegment)
    (h1 : P cur.color = true) (h2 : l.all (fun s => P s.color) = true) :
    (mergeFrom cur l).all (fun s => P s.color) = true := by
  induction l generalizing cur with
  | nil => simpa [mergeFrom] using h1
  | cons s rest ih =>
      simp only [List.all_cons, Bool.and_eq_true] at h2
      simp only [mergeFrom]
      split
      · exact ih _ h2.1 h2.2
      · simp only [List.all_cons, Bool.and_eq_true]
        exact ⟨h1, ih s h2.1 h2.2⟩

theorem merge_sum (l : List ColorSegment) :
    seg_sum (merge_consecutive_segments l) = seg_sum l := by
  cases l with
  | nil => rfl
  | cons s rest =>
      simp only [merge_consecutive_segments]
      rw [mergeFrom_sum, seg_sum_cons]

theorem merge_nodup (l : List ColorSegment) :
    no_adjacent_dup (merge_consecutive_segments l) = true := by
  cases l with
  | nil => rfl
  | cons s rest => exact mergeFrom_nodup s rest

/-- Re-merging an already-merged sequence is a no-op (the spec's merge
idempotence, used to compute the shape of the tubes after a pour). -/
theorem merge_eq_of_nodup (l : List ColorSegment) (h : no_adjacent_dup l = true) :
    merge_consecutive_segments l = l := by
  cases l with
  | nil => rfl
  | cons s rest => exact mergeFrom_eq_of_nodup s rest h

theorem topColorOf_cons (s : ColorSegment) (rest : List ColorSegment) :
    topColorOf (s :: rest) = if s.color = "empty" then topColorOf rest else some s := by
  by_cases h : s.color = "empty" <;> simp [topColorOf, List.find?_cons, h]

theorem firstEmptyHeight_cons (s : ColorSegment) (rest : List ColorSegment) :
    firstEmptyHeight (s :: rest) =
      if s.color = "empty" then s.height else firstEmptyHeight rest := by
  by_cases h : s.color = "empty" <;> simp [firstEmptyHeight, List.find?_cons, h]

theorem remove_first_nonempty_sum (l : List ColorSegment) (top : ColorSegment)
    (h : topColorOf l = some top) :
    top.height + seg_sum (remove_first_nonempty l) = seg_sum l := by
  induction l with
  | nil => simp [topColorOf] at h
  | cons s rest ih =>
      rw [topColorOf_cons] at h
      by_cases hs : s.color = "empty"
      · rw [if_pos hs] at h
        simp only [remove_first_nonempty, if_pos hs]
        rw [seg_sum_cons, seg_sum_cons, ← ih h]
        omega
      · rw [if_neg hs] at h
        cases h
        simp [remove_first_nonempty, if_neg hs, seg_sum_cons]

theorem reduce_first_empty_sum (h : Nat) (l : List ColorSegment)
    (hle : h ≤ firstEmptyHeight l) :
    seg_sum (reduce_first_empty h l) + h = seg_sum l := by
  induction l with
  | nil =>
      simp only [firstEmptyHeight, List.find?_nil] at hle
      simp only [reduce_first_empty]
      omega
  | cons s rest ih =>
      rw [firstEmptyHeight_cons] at hle
      by_cases hs : s.color = "empty"
      · rw [if_pos hs] at hle
        simp only [reduce_first_empty, if_pos hs]
        split
        · next hgt => rw [seg_sum_cons, seg_sum_cons]; simp only [ColorSegment.mk]; omega
        · next hngt => rw [seg_sum_cons]; omega
      · rw [if_neg hs] at hle
        simp only [reduce_first_empty, if_neg hs]
        rw [seg_sum_cons, seg_sum_cons, ← ih hle]
        omega

theorem pour_into_sum (top : ColorSegment) (l : List ColorSegment) :
    seg_sum (pour_into top l) = seg_sum (reduce_first_empty top.height l) + top.height := by
  unfold pour_into
  split
  · next heq => rw [heq]; simp [seg_sum]
  · next t0 rest heq =>
      rw [heq]
      split <;> rw [seg_sum_cons, seg_sum_cons] <;> simp only [seg_sum_cons] <;> omega

theorem top_color_not_empty (t : TubeState) (fc : ColorSegment)
    (h : t.top_color = some fc) : ¬ fc.color = "empty" := by
  have := List.find?_some h
  simpa using this

theorem top_color_mem (t : TubeState) (fc : ColorSegment)
    (h : t.top_color = some fc) : fc ∈ t.segments :=
  List.mem_of_find?_eq_some h

/-- Elimination form of `can_pour = true`. -/
theorem can_pour_elim (ft tt : TubeState) (h : can_pour ft tt = true) :
    ∃ fc, ft.top_color = some fc ∧ fc.height ≤ tt.available_space_px ∧
      (tt.top_color = none ∨ ∃ tc, tt.top_color = some tc ∧ tc.color = fc.color) := by
  unfold can_pour at h
  cases hf : ft.top_color with
  | none => rw [hf] at h; exact absurd h (by simp)
  | some fc =>
      rw [hf] at h
      dsimp only at h
      rw [if_neg (top_color_not_empty ft fc hf)] at h
      by_cases hlt : tt.available_space_px < fc.height
      · rw [if_pos hlt] at h
        exact absurd h (by simp)
      · rw [if_neg hlt] at h
        refine ⟨fc, rfl, by omega, ?_⟩
        cases ht : tt.top_color with
        | none => exact Or.inl rfl
        | some tc =>
            rw [ht] at h
            dsimp only at h
            exact Or.inr ⟨tc, rfl, by simpa using h⟩

@[simp] theorem PuzzleState.mk_tubes (l : List TubeState) :
    (PuzzleState.mk l).tubes = l := rfl

@[simp] theorem TubeState.mk_segments (i : Nat) (l : List ColorSegment) (c : Nat) :
    (TubeState.mk i l c).segments = l := rfl

@[simp] theorem TubeState.mk_capacity (i : Nat) (l : List ColorSegment) (c : Nat) :
    (TubeState.mk i l c).capacity_px = c := rfl

/-- Splitting the bundled invariant hypothesis. -/
theorem invariants_split (t : TubeState) (h : t.invariants = true) :
    seg_sum t.segments = t.capacity_px ∧ no_adjacent_dup t.segments = true ∧
      inv3_segs t.segments = true := by
  unfold TubeState.invariants TubeState.inv1 TubeState.inv2 TubeState.inv3 at h
  simp only [Bool.and_eq_true, Nat.beq_eq_true_eq] at h
  exact ⟨h.1.1, h.1.2, h.2⟩

/-- A tube satisfies I1 and I2 iff its fields do. -/
theorem inv1_inv2_intro (t : TubeState)
    (h1 : seg_sum t.segments = t.capacity_px) (h2 : no_adjacent_dup t.segments = true) :
    (t.inv1 && t.inv2) = true := by
  unfold TubeState.inv1 TubeState.inv2
  simp only [Bool.and_eq_true, Nat.beq_eq_true_eq]
  exact ⟨h1, h2⟩

/-- The source tube's new segment list keeps the total height. -/
theorem pour_from_sum (segs : List ColorSegment) (fc : ColorSegment)
    (h : topColorOf segs = some fc) :
    seg_sum (merge_consecutive_segments
      (ColorSegment.mk "empty" fc.height :: remove_first_nonempty segs)) = seg_sum segs := by
  rw [merge_sum, seg_sum_cons, ColorSegment.mk_height]
  exact remove_first_nonempty_sum segs fc h

/-- The destination tube's new segment list keeps the total height, given
the space check of `can_pour`. -/
theorem pour_to_sum (fc : ColorSegment) (segs : List ColorSegment)
    (hle : fc.height ≤ firstEmptyHeight segs) :
    seg_sum (merge_consecutive_segments (pour_into fc segs)) = seg_sum segs := by
  rw [merge_sum, pour_into_sum, reduce_first_empty_sum _ _ hle]

/-- Claim C4: for every PuzzleState whose tubes all satisfy invariants
I1-I3 and every move (f, t) of distinct indices with can_pour true, in
the state returned by apply_move every tube's segment amounts (empty
segments included) sum to its capacity (I1) and no two adjacent segments
share the same label (I2). -/
theorem claim_C4_invariants_I1_I2
    (p : PuzzleState) (f t : Nat) (ft tt : TubeState)
    (hinv : p.tubes.all TubeState.invariants = true)
    (hf : p.tubes[f]? = some ft) (ht : p.tubes[t]? = some tt)
    (hft : f ≠ t) (hcp : can_pour ft tt = true) :
    ∃ p', p.apply_move f t = some p' ∧
      p'.tubes.all (fun tb => tb.inv1 && tb.inv2) = true := by
  obtain ⟨fc, hfc, hle, _⟩ := can_pour_elim ft tt hcp
  unfold PuzzleState.apply_move apply_move_tubes
  rw [hf, ht]
  dsimp only
  rw [hfc]
  dsimp only
  refine ⟨_, rfl, ?_⟩
  rw [List.all_eq_true]
  intro tb htb
  simp only [PuzzleState.mk_tubes] at htb
  have hinvs := List.all_eq_true.mp hinv
  rcases List.mem_or_eq_of_mem_set htb with htb1 | rfl
  · rcases List.mem_or_eq_of_mem_set htb1 with htb2 | rfl
    · obtain ⟨h1, h2, _⟩ := invariants_split tb (hinvs tb htb2)
      exact inv1_inv2_intro tb h1 h2
    · obtain ⟨h1, _, _⟩ := invariants_split ft (hinvs ft (List.getElem?_mem hf))
      refine inv1_inv2_intro _ ?_ ?_
      · simp only [TubeState.mk_segments, TubeState.mk_capacity]
        rw [pour_from_sum ft.segments fc hfc]
        exact h1
      · simp only [TubeState.mk_segments]
        exact merge_nodup _
  · obtain ⟨h1, _, _⟩ := invariants_split tt (hinvs tt (List.getElem?_mem ht))
    refine inv1_inv2_intro _ ?_ ?_
    · simp only [TubeState.mk_segments, TubeState.mk_capacity]
      rw [pour_to_sum fc tt.segments hle]
      exact h1
    · simp only [TubeState.mk_segments]
      exact merge_nodup _

/-! ## Shape lemmas for invariant I3 (claim C3) -/

theorem all_nonempty_cons (s : ColorSegment) (l : List ColorSegment) :
    all_nonempty (s :: l) = true ↔ (¬ s.color = "empty") ∧ all_nonempty l = true := by
  simp [all_nonempty]

theorem nodup_tail (s : ColorSegment) (l : List ColorSegment)
    (h : no_adjacent_dup (s :: l) = true) : no_adjacent_dup l = true := by
  cases l with
  | nil => rfl
  | cons b t =>
      simp only [no_adjacent_dup, Bool.and_eq_true] at h
      exact h.2

/-- Prepending an `empty` segment to a list of nonempty-colored segments
keeps adjacent labels distinct. -/
theorem nodup_cons_empty (x : Nat) (l : List ColorSegment)
    (hne : all_nonempty l = true) (hnd : no_adjacent_dup l = true) :
    no_adjacent_dup (ColorSegment.mk "empty" x :: l) = true := by
  cases l with
  | nil => rfl
  | cons b t =>
      obtain ⟨hb, _⟩ := (all_nonempty_cons b t).mp hne
      simp only [no_adjacent_dup, Bool.and_eq_true, decide_eq_true_eq]
      exact ⟨fun hc => hb hc.symm, hnd⟩

theorem empties_count_cons (s : ColorSegment) (l : List ColorSegment) :
    empties_count (s :: l) = (if s.color = "empty" then 1 else 0) + empties_count l := by
  by_cases h : s.color = "empty" <;> simp [empties_count, List.filter_cons, h] <;> omega

theorem empties_count_of_all_nonempty (l : List ColorSegment)
    (h : all_nonempty l = true) : empties_count l = 0 := by
  induction l with
  | nil => rfl
  | cons s t ih =>
      obtain ⟨hs, ht⟩ := (all_nonempty_cons s t).mp h
      rw [empties_count_cons, if_neg hs, ih ht]

theorem inv3_of_all_nonempty (l : List ColorSegment)
    (h : all_nonempty l = true) : inv3_segs l = true := by
  cases l with
  | nil => rfl
  | cons s t =>
      obtain ⟨hs, _⟩ := (all_nonempty_cons s t).mp h
      simp only [inv3_segs, if_neg hs]
      exact h

theorem inv3_empties_le_one (l : List ColorSegment)
    (h : inv3_segs l = true) : empties_count l ≤ 1 := by
  cases l with
  | nil => simp [empties_count]
  | cons s t =>
      simp only [inv3_segs] at h
      by_cases hs : s.color = "empty"
      · rw [if_pos hs] at h
        rw [empties_count_cons, if_pos hs, empties_count_of_all_nonempty t h]
      · rw [if_neg hs] at h
        obtain ⟨_, ht⟩ := (all_nonempty_cons s t).mp h
        rw [empties_count_cons, if_neg hs, empties_count_of_all_nonempty t ht]
        omega

/-- Shape of the source tube after a pour, under I2, I3: a single leading
`empty` segment over nonempty-colored segments (so I3 is preserved on the
source side). -/
theorem pour_from_shape (segs : List ColorSegment) (fc : ColorSegment)
    (htop : topColorOf segs = some fc)
    (hnd : no_adjacent_dup segs = true) (h3 : inv3_segs segs = true) :
    ∃ e rest, merge_consecutive_segments
        (ColorSegment.mk "empty" fc.height :: remove_first_nonempty segs) =
      ColorSegment.mk "empty" e :: rest ∧ all_nonempty rest = true := by
  cases segs with
  | nil => simp [topColorOf] at htop
  | cons s rest0 =>
      rw [topColorOf_cons] at htop
      by_cases hs : s.color = "empty"
      · rw [if_pos hs] at htop
        simp only [inv3_segs, if_pos hs] at h3
        cases rest0 with
        | nil => simp [topColorOf] at htop
        | cons r0 rtail =>
            obtain ⟨hr0, hrtail⟩ := (all_nonempty_cons r0 rtail).mp h3
            rw [topColorOf_cons, if_neg hr0] at htop
            cases htop
            have hred : remove_first_nonempty (s :: fc :: rtail) =
                s :: rtail := by
              simp [remove_first_nonempty, hs, hr0]
            rw [hred]
            have hstep : merge_consecutive_segments
                (ColorSegment.mk "empty" fc.height :: s :: rtail) =
                mergeFrom (ColorSegment.mk "empty" (fc.height + s.height)) rtail := by
              simp only [merge_consecutive_segments, mergeFrom, ColorSegment.mk_color]
              rw [if_pos hs.symm]
              rw [hs]
            rw [hstep]
            have hnd_rtail : no_adjacent_dup rtail = true :=
              nodup_tail _ _ (nodup_tail _ _ hnd)
            rw [mergeFrom_eq_of_nodup _ _ (nodup_cons_empty _ _ hrtail hnd_rtail)]
            exact ⟨fc.height + s.height, rtail, rfl, hrtail⟩
      · rw [if_neg hs] at htop
        cases htop
        simp only [inv3_segs, if_neg hs] at h3
        obtain ⟨_, hrest⟩ := (all_nonempty_cons fc rest0).mp h3
        have hred : remove_first_nonempty (fc :: rest0) = rest0 := by
          simp [remove_first_nonempty, hs]
        rw [hred]
        have hnd0 : no_adjacent_dup rest0 = true := nodup_tail _ _ hnd
        simp only [merge_consecutive_segments]
        rw [mergeFrom_eq_of_nodup _ _ (nodup_cons_empty _ _ hrest hnd0)]
        exact ⟨fc.height, rest0, rfl, hrest⟩

theorem nodup_cons2 (a b : ColorSegment) (l : List ColorSegment) :
    no_adjacent_dup (a :: b :: l) = true ↔
      (¬ a.color = b.color) ∧ no_adjacent_dup (b :: l) = true := by
  simp [no_adjacent_dup]

/-- Replacing the head by a segment with the same color keeps adjacent
labels distinct. -/
theorem nodup_replace_head (a b : ColorSegment) (l : List ColorSegment)
    (h : no_adjacent_dup (a :: l) = true) (hc : b.color = a.color) :
    no_adjacent_dup (b :: l) = true := by
  cases l with
  | nil => rfl
  | cons x t =>
      obtain ⟨hx, ht⟩ := (nodup_cons2 a x t).mp h
      exact (nodup_cons2 b x t).mpr ⟨by rw [hc]; exact hx, ht⟩

/-- Shape of the destination tube after a pour, under I2, I3 and
positivity: either every segment holds a real color, or the poured color
sits on top with the residual `empty` segment directly below it. -/
theorem pour_to_shape (fc : ColorSegment) (segs : List ColorSegment)
    (hfc : ¬ fc.color = "empty") (hpos : 0 < fc.height)
    (hle : fc.height ≤ firstEmptyHeight segs)
    (hnd : no_adjacent_dup segs = true) (h3 : inv3_segs segs = true) :
    all_nonempty (merge_consecutive_segments (pour_into fc segs)) = true ∨
    ∃ e rest, merge_consecutive_segments (pour_into fc segs) =
        ColorSegment.mk fc.color fc.height :: ColorSegment.mk "empty" e :: rest ∧
        all_nonempty rest = true := by
  cases segs with
  | nil =>
      simp only [firstEmptyHeight, List.find?_nil] at hle
      omega
  | cons s rest =>
      rw [firstEmptyHeight_cons] at hle
      by_cases hs : s.color = "empty"
      swap
      · -- head nonempty: I3 forces every segment nonempty, so no space
        rw [if_neg hs] at hle
        simp only [inv3_segs, if_neg hs] at h3
        obtain ⟨_, hrest⟩ := (all_nonempty_cons s rest).mp h3
        have : firstEmptyHeight rest = 0 := by
          have : rest.find? (fun sg => sg.color = "empty") = none := by
            rw [List.find?_eq_none]
            intro x hx
            have := (List.all_eq_true.mp hrest) x hx
            simpa using this
          simp [firstEmptyHeight, this]
        omega
      · rw [if_pos hs] at hle
        simp only [inv3_segs, if_pos hs] at h3
        have hnd_rest : no_adjacent_dup rest = true := nodup_tail _ _ hnd
        by_cases hgt : s.height > fc.height
        · -- residual empty space remains; the poured color lands above it
          right
          have hred : reduce_first_empty fc.height (s :: rest) =
              ColorSegment.mk "empty" (s.height - fc.height) :: rest := by
            simp [reduce_first_empty, hs, hgt]
          have hpi : pour_into fc (s :: rest) =
              ColorSegment.mk fc.color fc.height ::
                ColorSegment.mk "empty" (s.height - fc.height) :: rest := by
            unfold pour_into
            rw [hred]
            dsimp only [ColorSegment.mk_color]
            rw [if_neg (fun hcc => hfc hcc.symm)]
          rw [hpi]
          have hnodup : no_adjacent_dup
              (ColorSegment.mk fc.color fc.height ::
                ColorSegment.mk "empty" (s.height - fc.height) :: rest) = true := by
            refine (nodup_cons2 _ _ _).mpr ⟨by simpa using hfc, ?_⟩
            exact nodup_cons_empty _ _ h3 hnd_rest
          rw [merge_eq_of_nodup _ hnodup]
          exact ⟨s.height - fc.height, rest, rfl, h3⟩
        · -- the empty space is consumed exactly
          left
          have hred : reduce_first_empty fc.height (s :: rest) = rest := by
            simp [reduce_first_empty, hs, hgt]
          cases rest with
          | nil =>
              have hpi : pour_into fc (s :: ([] : List ColorSegment)) =
                  [ColorSegment.mk fc.color fc.height] := by
                unfold pour_into
                rw [hred]
              rw [hpi]
              have : merge_consecutive_segments [ColorSegment.mk fc.color fc.height] =
                  [ColorSegment.mk fc.color fc.height] := rfl
              rw [this]
              exact (all_nonempty_cons _ _).mpr ⟨by simpa using hfc, rfl⟩
          | cons t0 rtail =>
              obtain ⟨ht0, hrtail⟩ := (all_nonempty_cons t0 rtail).mp h3
              by_cases hc : t0.color = fc.color
              · have hpi : pour_into fc (s :: t0 :: rtail) =
                    ColorSegment.mk fc.color (t0.height + fc.height) :: rtail := by
                  unfold pour_into
                  rw [hred]
                  dsimp only
                  rw [if_pos hc]
                have hnodup : no_adjacent_dup
                    (ColorSegment.mk fc.color (t0.height + fc.height) :: rtail) = true :=
                  nodup_replace_head t0 _ rtail hnd_rest (by simpa using hc.symm)
                rw [hpi, merge_eq_of_nodup _ hnodup]
                exact (all_nonempty_cons _ _).mpr ⟨by simpa using hfc, hrtail⟩
              · have hpi : pour_into fc (s :: t0 :: rtail) =
                    ColorSegment.mk fc.color fc.height :: t0 :: rtail := by
                  unfold pour_into
                  rw [hred]
                  dsimp only
                  rw [if_neg hc]
                have hnodup : no_adjacent_dup
                    (ColorSegment.mk fc.color fc.height :: t0 :: rtail) = true := by
                  refine (nodup_cons2 _ _ _).mpr ⟨?_, hnd_rest⟩
                  simpa using fun hcc => hc hcc.symm
                rw [hpi, merge_eq_of_nodup _ hnodup]
                refine (all_nonempty_cons _ _).mpr ⟨by simpa using hfc, ?_⟩
                exact (all_nonempty_cons _ _).mpr ⟨ht0, hrtail⟩

theorem pos_heights_mem (t : TubeState) (h : t.pos_heights = true)
    (s : ColorSegment) (hs : s ∈ t.segments) : 0 < s.height := by
  have := List.all_eq_true.mp h s hs
  simpa using this

/-- Claim C3 (amended): for a state whose tubes satisfy I1-I3 with
positive segment amounts and a move (f, t) of distinct indices with
can_pour true, after apply_move every tube has at most one segment
labeled `empty`; every tube other than the destination satisfies I3 (the
`empty` segment, when present, is topmost); in the destination tube the
`empty` segment is either absent or lies directly below the newly poured
topmost segment instead of above it. -/
theorem claim_C3_amended
    (p : PuzzleState) (f t : Nat) (ft tt : TubeState)
    (hinv : p.tubes.all (fun tb => tb.invariants && tb.pos_heights) = true)
    (hf : p.tubes[f]? = some ft) (ht : p.tubes[t]? = some tt)
    (hft : f ≠ t) (hcp : can_pour ft tt = true) :
    ∃ p', p.apply_move f t = some p' ∧
      (∀ tb ∈ p'.tubes, empties_count tb.segments ≤ 1) ∧
      (∀ i tb, ¬ i = t → p'.tubes[i]? = some tb → tb.inv3 = true) ∧
      (∀ tb, p'.tubes[t]? = some tb →
        all_nonempty tb.segments = true ∨
        ∃ c e rest, tb.segments = c :: ColorSegment.mk "empty" e :: rest ∧
          ¬ c.color = "empty" ∧ all_nonempty rest = true) := by
  obtain ⟨fc, hfc, hle, _⟩ := can_pour_elim ft tt hcp
  have hinvs := List.all_eq_true.mp hinv
  have hft_facts := hinvs ft (List.getElem?_mem hf)
  have htt_facts := hinvs tt (List.getElem?_mem ht)
  simp only [Bool.and_eq_true] at hft_facts htt_facts
  obtain ⟨_, hft_nd, hft_i3⟩ := invariants_split ft hft_facts.1
  obtain ⟨_, htt_nd, htt_i3⟩ := invariants_split tt htt_facts.1
  have hfc_ne : ¬ fc.color = "empty" := top_color_not_empty ft fc hfc
  have hfc_pos : 0 < fc.height :=
    pos_heights_mem ft hft_facts.2 fc (top_color_mem ft fc hfc)
  obtain ⟨ef, restf, hNF, hNF_ne⟩ := pour_from_shape ft.segments fc hfc hft_nd hft_i3
  have hNT := pour_to_shape fc tt.segments hfc_ne hfc_pos hle htt_nd htt_i3
  obtain ⟨hflt, -⟩ := List.getElem?_eq_some.mp hf
  obtain ⟨htlt, -⟩ := List.getElem?_eq_some.mp ht
  unfold PuzzleState.apply_move apply_move_tubes
  rw [hf, ht]
  dsimp only
  rw [hfc]
  dsimp only
  refine ⟨_, rfl, ?_, ?_, ?_⟩
  · -- at most one empty segment per tube
    intro tb htb
    simp only [PuzzleState.mk_tubes] at htb
    rcases List.mem_or_eq_of_mem_set htb with htb1 | rfl
    · rcases List.mem_or_eq_of_mem_set htb1 with htb2 | rfl
      · have hx := hinvs tb htb2
        simp only [Bool.and_eq_true] at hx
        obtain ⟨-, -, h3⟩ := invariants_split tb hx.1
        exact inv3_empties_le_one _ h3
      · simp only [TubeState.mk_segments]
        rw [hNF, empties_count_cons, empties_count_of_all_nonempty restf hNF_ne]
        simp
    · simp only [TubeState.mk_segments]
      rcases hNT with hall | ⟨e, rest, heq, hrest⟩
      · rw [empties_count_of_all_nonempty _ hall]
        omega
      · rw [heq, empties_count_cons, empties_count_cons,
          empties_count_of_all_nonempty rest hrest]
        simp [hfc_ne]
  · -- every tube except the destination satisfies I3
    intro i tb hit htbi
    simp only [PuzzleState.mk_tubes] at htbi
    rw [List.getElem?_set_ne (fun h => hit h.symm)] at htbi
    by_cases hif : i = f
    · subst hif
      rw [List.getElem?_set_eq_of_lt _ hflt] at htbi
      cases htbi
      unfold TubeState.inv3
      simp only [TubeState.mk_segments]
      rw [hNF]
      simp only [inv3_segs, ColorSegment.mk_color, if_pos rfl]
      exact hNF_ne
    · rw [List.getElem?_set_ne (fun h => hif h.symm)] at htbi
      have hx := hinvs tb (List.getElem?_mem htbi)
      simp only [Bool.and_eq_true] at hx
      obtain ⟨-, -, h3⟩ := invariants_split tb hx.1
      exact h3
  · -- the destination tube's shape
    intro tb htbt
    simp only [PuzzleState.mk_tubes] at htbt
    rw [List.getElem?_set_eq_of_lt _ (by rw [List.length_set]; exact htlt)] at htbt
    cases htbt
    simp only [TubeState.mk_segments]
    rcases hNT with hall | ⟨e, rest, heq, hrest⟩
    · exact Or.inl hall
    · exact Or.inr ⟨ColorSegment.mk fc.color fc.height, e, rest, heq,
        by simpa using hfc_ne, hrest⟩

/-! ## The `canPour` refinement (claim C6) -/

theorem firstEmptyHeight_eq_zero (l : List ColorSegment) (h : all_nonempty l = true) :
    firstEmptyHeight l = 0 := by
  unfold firstEmptyHeight
  have hnone : l.find? (fun sg => sg.color = "empty") = none := by
    rw [List.find?_eq_none]
    intro x hx
    have := List.all_eq_true.mp h x hx
    simpa using this
  rw [hnone]

/-- Under I3 the source's `available_space_px` (first `empty` segment
anywhere) coincides with the spec's `availableSpace` (leading `empty`
segment). -/
theorem available_eq_leading (tt : TubeState) (h3 : inv3_segs tt.segments = true) :
    tt.available_space_px = leading_empty_amount tt := by
  unfold TubeState.available_space_px leading_empty_amount
  cases hseg : tt.segments with
  | nil => simp [firstEmptyHeight]
  | cons s rest =>
      dsimp only
      rw [hseg] at h3
      simp only [inv3_segs] at h3
      rw [firstEmptyHeight_cons]
      by_cases hs : s.color = "empty"
      · rw [if_pos hs, if_pos hs]
      · rw [if_neg hs, if_neg hs]
        rw [if_neg hs] at h3
        obtain ⟨-, hrest⟩ := (all_nonempty_cons s rest).mp h3
        exact firstEmptyHeight_eq_zero rest hrest

/-- Claim C6: for tubes satisfying I1-I3, `can_pour` returns true iff
(a) the source has a topmost non-empty segment, (b) the destination's
leading empty amount is at least that segment's amount, and (c) the
destination has no non-empty segment or its topmost non-empty segment
carries the same label. -/
theorem claim_C6_can_pour_spec (ft tt : TubeState)
    (h1 : ft.invariants = true) (h2 : tt.invariants = true) :
    can_pour ft tt = can_pour_spec ft tt := by
  obtain ⟨-, -, h3⟩ := invariants_split tt h2
  have havail : tt.available_space_px = leading_empty_amount tt :=
    available_eq_leading tt h3
  unfold can_pour can_pour_spec
  cases hf : ft.top_color with
  | none => rfl
  | some fc =>
      dsimp only
      rw [if_neg (top_color_not_empty ft fc hf), havail]
      by_cases hle : fc.height ≤ leading_empty_amount tt
      · rw [if_neg (Nat.not_lt.mpr hle), decide_eq_true hle, Bool.true_and]
      · rw [if_pos (Nat.not_le.mp hle), decide_eq_false hle, Bool.false_and]

/-! ## Soundness of the search engine (claims C1 and C7) -/

theorem tryMoves_sound
    (rec : PuzzleState → List (Nat × Nat) → List String →
      Option (List (Nat × Nat)) × List String)
    (Hrec : ∀ s path vis res v', rec s path vis = (some res, v') →
      ∃ tail, res = path ++ tail ∧
        ∃ s', apply_moves s tail = some s' ∧ s'.is_solved = true) :
    ∀ ms s path vis res v', tryMoves rec ms s path vis = (some res, v') →
      ∃ tail, res = path ++ tail ∧
        ∃ s', apply_moves s tail = some s' ∧ s'.is_solved = true := by
  intro ms
  induction ms with
  | nil =>
      intro s path vis res v' h
      simp [tryMoves] at h
  | cons m rest ih =>
      intro s path vis res v' h
      simp only [tryMoves] at h
      split at h
      · exact ih s path vis res v' h
      · cases ham : s.apply_move m.1 m.2 with
        | none =>
            rw [ham] at h
            simp at h
        | some s2 =>
            rw [ham] at h
            dsimp only at h
            cases hrec : rec s2 (path ++ [m]) vis with
            | mk o v2 =>
                rw [hrec] at h
                cases o with
                | some r =>
                    dsimp only at h
                    have hres : res = r := by
                      have := congrArg Prod.fst h
                      simpa using this.symm
                    subst hres
                    obtain ⟨tail, htail, s3, hs3, hsolved⟩ :=
                      Hrec s2 (path ++ [m]) vis res v2 hrec
                    refine ⟨m :: tail, ?_, s3, ?_, hsolved⟩
                    · rw [htail]
                      simp
                    · simp only [apply_moves, ham]
                      exact hs3
                | none =>
                    dsimp only at h
                    exact ih s path v2 res v' h

theorem dfsGo_sound :
    ∀ fuel s path vis res v', dfsGo fuel s path vis = (some res, v') →
      ∃ tail, res = path ++ tail ∧
        ∃ s', apply_moves s tail = some s' ∧ s'.is_solved = true := by
  intro fuel
  induction fuel with
  | zero =>
      intro s path vis res v' h
      simp only [dfsGo] at h
      split at h
      · next hsol =>
          have hres : res = path := by
            have := congrArg Prod.fst h
            simpa using this.symm
          exact ⟨[], by rw [hres, List.append_nil], s, rfl, hsol⟩
      · simp at h
  | succ fuel ih =>
      intro s path vis res v' h
      simp only [dfsGo] at h
      split at h
      · next hsol =>
          have hres : res = path := by
            have := congrArg Prod.fst h
            simpa using this.symm
          exact ⟨[], by rw [hres, List.append_nil], s, rfl, hsol⟩
      · split at h
        · simp at h
        · exact tryMoves_sound (dfsGo fuel) ih _ s path _ res v' h

/-- Claim C1: whenever `solve` returns a move list, replaying those moves
from the initial state via `apply_move` reaches a state whose
`is_solved` is true. -/
theorem claim_C1_solution_validity (s : PuzzleState) (maxDepth : Nat)
    (moves : List (Nat × Nat)) (h : solve s maxDepth = some moves) :
    ∃ s', apply_moves s moves = some s' ∧ s'.is_solved = true := by
  unfold solve at h
  have hfull : dfsGo maxDepth s [] [] = (some moves, (dfsGo maxDepth s [] []).2) := by
    rw [← h]
  obtain ⟨tail, htail, hs⟩ :=
    dfsGo_sound maxDepth s [] [] moves (dfsGo maxDepth s [] []).2 hfull
  simpa [htail] using hs

/-- Claim C7: an already-solved initial state yields a present,
zero-length move list, never `none`. -/
theorem claim_C7_solved_returns_empty (s : PuzzleState) (maxDepth : Nat)
    (h : s.is_solved = true) : solve s maxDepth = some [] := by
  unfold solve
  rw [dfsGo.eq_def]
  dsimp only
  rw [if_pos h]

/-! ## Purity of `apply_move` (claim C5) -/

/-- Claim C5: in the heap model of the method's mutation discipline, a
successful `apply_move` call leaves the original state untouched: the
entry at the original address, and hence its serialization, are
identical before and after the call. -/
theorem claim_C5_purity (hp : Heap) (a f t : Nat) (hp' : Heap) (a' : Nat)
    (h : apply_move_heap hp a f t = some (hp', a')) :
    hp'.states[a]? = hp.states[a]? ∧
      (hp'.states[a]?).map serialize_tubes = (hp.states[a]?).map serialize_tubes := by
  unfold apply_move_heap at h
  cases hga : hp.states[a]? with
  | none =>
      rw [hga] at h
      simp at h
  | some tubes =>
      rw [hga] at h
      dsimp only at h
      cases ham : apply_move_tubes (deepcopy_tubes tubes) f t with
      | none =>
          rw [ham] at h
          simp at h
      | some newTubes =>
          rw [ham] at h
          dsimp only at h
          have hhp : hp' = Heap.mk (hp.states ++ [newTubes]) := by
            have := congrArg (fun o => Option.map Prod.fst o) h
            simpa using this.symm
          subst hhp
          have halen : a < hp.states.length := by
            by_contra hcon
            rw [List.getElem?_eq_none (by omega)] at hga
            exact Option.noConfusion hga
          have hsame : (Heap.mk (hp.states ++ [newTubes])).states[a]? = hp.states[a]? := by
            show (hp.states ++ [newTubes])[a]? = hp.states[a]?
            rw [List.getElem?_append]
            rw [if_pos halen]
          exact ⟨hsame.trans hga, by rw [hsame.trans hga]⟩

/-! ## `apply_move` error behavior (claim C2) -/

/-- Claim C2 (amended): for valid indices, apply_move fails (raises) iff
the source tube has no topmost non-empty segment; in every other case --
including moves that `can_pour` rejects for lack of space or a color
mismatch -- it returns a new state instead of failing. -/
theorem claim_C2_amended (p : PuzzleState) (f t : Nat) (ft : TubeState)
    (hf : p.tubes[f]? = some ft) (ht : t < p.tubes.length) :
    (p.apply_move f t = none ↔ ft.top_color = none) := by
  unfold PuzzleState.apply_move apply_move_tubes
  rw [hf]
  have htt : p.tubes[t]? = some (p.tubes.get ⟨t, ht⟩) := by
    rw [List.getElem?_eq_some]
    exact ⟨ht, rfl⟩
  rw [htt]
  dsimp only
  cases hfc : ft.top_color with
  | none => simp
  | some fc => simp

/-- Claim C2 counterexample: `can_pour` rejects the move (the destination
lacks the space and holds a different color), yet `apply_move` returns a
new state -- an overfull destination -- instead of failing. -/
theorem claim_C2_counterexample :
    can_pour (TubeState.mk 0 [ColorSegment.mk "red" 2] 2)
      (TubeState.mk 1 [ColorSegment.mk "empty" 1, ColorSegment.mk "blue" 1] 2) = false ∧
    (PuzzleState.mk [TubeState.mk 0 [ColorSegment.mk "red" 2] 2,
        TubeState.mk 1 [ColorSegment.mk "empty" 1, ColorSegment.mk "blue" 1] 2]).apply_move 0 1 =
      some (PuzzleState.mk [TubeState.mk 0 [ColorSegment.mk "empty" 2] 2,
        TubeState.mk 1 [ColorSegment.mk "red" 2, ColorSegment.mk "blue" 1] 2]) := by
  decide

/-! ## `from_detection` (claim C9) -/

/-- Claim C9 (amended): `from_detection` validates nothing and never
fails; it builds a state for any snapshot.  Invariant I1 holds only
because each capacity is defined as the sum of the segment amounts. -/
theorem claim_C9_amended (det : List (Nat × List (String × Nat))) :
    (PuzzleState.from_detection det).tubes.all TubeState.inv1 = true := by
  rw [List.all_eq_true]
  intro tb htb
  unfold PuzzleState.from_detection at htb
  simp only [PuzzleState.mk_tubes, List.mem_map] at htb
  obtain ⟨td, -, rfl⟩ := htb
  unfold TubeState.inv1
  simp only [TubeState.mk_segments, TubeState.mk_capacity, Nat.beq_eq_true_eq]
  unfold seg_sum
  rw [List.map_map]
  rfl

/-- Claim C9 counterexample: a snapshot with two `empty` segments in one
tube violates I3, yet `from_detection` returns a puzzle state for it
instead of failing at construction time. -/
theorem claim_C9_counterexample :
    PuzzleState.from_detection [(0, [("empty", 1), ("empty", 1)])] =
      PuzzleState.mk [TubeState.mk 0
        [ColorSegment.mk "empty" 1, ColorSegment.mk "empty" 1] 2] ∧
    (PuzzleState.mk [TubeState.mk 0
        [ColorSegment.mk "empty" 1, ColorSegment.mk "empty" 1] 2]).tubes.all
      TubeState.inv3 = false := by
  decide

/-! ## Scheduler (claims C8 and C10) -/

/-- The trace is the plan with start times adjoined: dropping the start
component recovers `sched_aux` exactly. -/
theorem sched_trace_projects (d : ℚ) :
    ∀ moves tlu ct, (sched_trace d moves tlu ct).map (fun q => (q.1, q.2.1, q.2.2.1)) =
      sched_aux d moves tlu ct := by
  intro moves
  induction moves with
  | nil => intro tlu ct; rfl
  | cons m rest ih =>
      intro tlu ct
      cases m with
      | mk f t =>
          simp only [sched_trace, sched_aux, List.map_cons]
          rw [ih]

theorem sched_aux_delays_nonneg (d : ℚ) :
    ∀ moves tlu ct, (sched_aux d moves tlu ct).all (fun p => decide (0 ≤ p.2.2)) = true := by
  intro moves
  induction moves with
  | nil => intro tlu ct; rfl
  | cons m rest ih =>
      intro tlu ct
      cases m with
      | mk f t =>
          simp only [sched_aux, List.all_cons, Bool.and_eq_true]
          exact ⟨by simp [le_max_left], ih _ _⟩

/-- Claim C10 (amended): every delay emitted by the scheduler is
nonnegative (they are not all zero: current_time can fall below the
recorded tube-availability times, forcing a positive wait). -/
theorem claim_C10_amended (moves : List (Nat × Nat)) (d : ℚ) :
    all_delays_nonneg moves d = true := by
  unfold all_delays_nonneg compute_execution_plan
  exact sched_aux_delays_nonneg d moves _ _

/-- The concrete plan for the C10 counterexample input: the fourth move
reuses tube 0 after current_time was dragged back to 1 by the move on
fresh tubes 3 and 4, so its emitted delay is 1. -/
theorem sched_plan_cex : compute_execution_plan [(0, 1), (0, 2), (3, 4), (0, 3)] 1 =
    [(0, 1, 0), (0, 2, 0), (3, 4, 0), (0, 3, 1)] := by
  simp only [compute_execution_plan, sched_aux]
  norm_num

/-- Claim C10 counterexample: the plan for [(0,1), (0,2), (3,4), (0,3)]
with duration 1 contains a nonzero delay. -/
theorem claim_C10_counterexample :
    all_delays_zero [(0, 1), (0, 2), (3, 4), (0, 3)] 1 = false := by
  unfold all_delays_zero
  rw [sched_plan_cex]
  simp

/-- Claim C8: the per-tube exclusivity property fails on the plan for
moves [(0,1), (2,3), (2,4)] with animation duration 1: move (2,4) is
scheduled to start at time 1 while move (2,3), which also uses tube 2,
runs until time 2, because current_time is advanced to earliest+duration
instead of start+duration and can therefore move backwards. -/
theorem claim_C8_scheduler_violation :
    scheduler_respects_tubes [(0, 1), (2, 3), (2, 4)] 1 = false := by
  have htrace : sched_trace 1 [(0, 1), (2, 3), (2, 4)] (fun _ => 0) 0 =
      [(0, 1, 0, 0), (2, 3, 0, 1), (2, 4, 0, 1)] := by
    simp only [sched_trace]
    norm_num
  unfold scheduler_respects_tubes
  rw [htrace]
  simp only [check_sched]
  norm_num

/-! ## Counterexample for claim C3 and witnesses for the proved claims -/

/-- Claim C3 counterexample: a state satisfying I1-I3 (with positive
amounts) and a can_pour-legal move after which the destination tube
violates I3: apply_move produces [red(1), empty(1)], with the empty
segment below the poured color instead of on top. -/
theorem claim_C3_counterexample :
    (PuzzleState.mk [TubeState.mk 0 [ColorSegment.mk "red" 1, ColorSegment.mk "blue" 1] 2,
        TubeState.mk 1 [ColorSegment.mk "empty" 2] 2]).tubes.all
      (fun tb => tb.invariants && tb.pos_heights) = true ∧
    can_pour (TubeState.mk 0 [ColorSegment.mk "red" 1, ColorSegment.mk "blue" 1] 2)
      (TubeState.mk 1 [ColorSegment.mk "empty" 2] 2) = true ∧
    ((PuzzleState.mk [TubeState.mk 0 [ColorSegment.mk "red" 1, ColorSegment.mk "blue" 1] 2,
        TubeState.mk 1 [ColorSegment.mk "empty" 2] 2]).apply_move 0 1).map
      (fun p' => p'.tubes.all TubeState.inv3) = some false := by
  decide

/-- Witness for C1: on a two-tube puzzle `solve` returns [(0, 1)], and
replaying it reaches a solved state. -/
theorem claim_C1_witness :
    ∃ s', apply_moves (PuzzleState.mk
      [TubeState.mk 0 [ColorSegment.mk "empty" 1, ColorSegment.mk "red" 1] 2,
       TubeState.mk 1 [ColorSegment.mk "empty" 1, ColorSegment.mk "red" 1] 2])
      [(0, 1)] = some s' ∧ s'.is_solved = true :=
  claim_C1_solution_validity _ 3 [(0, 1)] (by decide)

/-- Witness for C2 (amended) at a concrete state with an all-empty
source tube. -/
theorem claim_C2_witness :
    ((PuzzleState.mk [TubeState.mk 0 [ColorSegment.mk "empty" 2] 2,
        TubeState.mk 1 [ColorSegment.mk "empty" 1, ColorSegment.mk "blue" 1] 2]).apply_move
      0 1 = none) ↔ (TubeState.mk 0 [ColorSegment.mk "empty" 2] 2).top_color = none :=
  claim_C2_amended _ 0 1 _ (by decide) (by decide)

/-- Witness for C3 (amended) at a concrete state and move. -/
theorem claim_C3_witness :
    ∃ p', (PuzzleState.mk [TubeState.mk 0 [ColorSegment.mk "red" 1, ColorSegment.mk "blue" 1] 2,
        TubeState.mk 1 [ColorSegment.mk "empty" 2] 2]).apply_move 0 1 = some p' ∧
      (∀ tb ∈ p'.tubes, empties_count tb.segments ≤ 1) ∧
      (∀ i tb, ¬ i = 1 → p'.tubes[i]? = some tb → tb.inv3 = true) ∧
      (∀ tb, p'.tubes[1]? = some tb →
        all_nonempty tb.segments = true ∨
        ∃ c e rest, tb.segments = c :: ColorSegment.mk "empty" e :: rest ∧
          ¬ c.color = "empty" ∧ all_nonempty rest = true) :=
  claim_C3_amended _ 0 1
    (TubeState.mk 0 [ColorSegment.mk "red" 1, ColorSegment.mk "blue" 1] 2)
    (TubeState.mk 1 [ColorSegment.mk "empty" 2] 2)
    (by decide) (by decide) (by decide) (by decide) (by decide)

/-- Witness for C4 at a concrete state and move. -/
theorem claim_C4_witness :
    ∃ p', (PuzzleState.mk [TubeState.mk 0 [ColorSegment.mk "red" 1, ColorSegment.mk "blue" 1] 2,
        TubeState.mk 1 [ColorSegment.mk "empty" 2] 2]).apply_move 0 1 = some p' ∧
      p'.tubes.all (fun tb => tb.inv1 && tb.inv2) = true :=
  claim_C4_invariants_I1_I2 _ 0 1
    (TubeState.mk 0 [ColorSegment.mk "red" 1, ColorSegment.mk "blue" 1] 2)
    (TubeState.mk 1 [ColorSegment.mk "empty" 2] 2)
    (by decide) (by decide) (by decide) (by decide) (by decide)

/-- Witness for C5 at a concrete heap and move. -/
theorem claim_C5_witness :
    (Heap.mk [[TubeState.mk 0 [ColorSegment.mk "empty" 1, ColorSegment.mk "red" 1] 2,
               TubeState.mk 1 [ColorSegment.mk "empty" 1, ColorSegment.mk "red" 1] 2],
              [TubeState.mk 0 [ColorSegment.mk "empty" 2] 2,
               TubeState.mk 1 [ColorSegment.mk "red" 2] 2]]).states[0]? =
      (Heap.mk [[TubeState.mk 0 [ColorSegment.mk "empty" 1, ColorSegment.mk "red" 1] 2,
                 TubeState.mk 1 [ColorSegment.mk "empty" 1, ColorSegment.mk "red" 1] 2]]).states[0]? ∧
    ((Heap.mk [[TubeState.mk 0 [ColorSegment.mk "empty" 1, ColorSegment.mk "red" 1] 2,
                TubeState.mk 1 [ColorSegment.mk "empty" 1, ColorSegment.mk "red" 1] 2],
               [TubeState.mk 0 [ColorSegment.mk "empty" 2] 2,
                TubeState.mk 1 [ColorSegment.mk "red" 2] 2]]).states[0]?).map serialize_tubes =
      ((Heap.mk [[TubeState.mk 0 [ColorSegment.mk "empty" 1, ColorSegment.mk "red" 1] 2,
                  TubeState.mk 1 [ColorSegment.mk "empty" 1, ColorSegment.mk "red" 1] 2]]).states[0]?).map
        serialize_tubes :=
  claim_C5_purity _ 0 0 1 _ 1 (by decide)

/-- Witness for C6 at concrete tubes satisfying all invariants. -/
theorem claim_C6_witness :
    can_pour (TubeState.mk 0 [ColorSegment.mk "red" 2] 2)
        (TubeState.mk 1 [ColorSegment.mk "empty" 1, ColorSegment.mk "blue" 1] 2) =
      can_pour_spec (TubeState.mk 0 [ColorSegment.mk "red" 2] 2)
        (TubeState.mk 1 [ColorSegment.mk "empty" 1, ColorSegment.mk "blue" 1] 2) :=
  claim_C6_can_pour_spec _ _ (by decide) (by decide)

/-- Witness for C7 at a concrete already-solved state. -/
theorem claim_C7_witness :
    solve (PuzzleState.mk [TubeState.mk 0 [ColorSegment.mk "red" 2] 2]) 5 = some [] :=
  claim_C7_solved_returns_empty _ 5 (by decide)

end WaterSort
